import Mathlib

/-!
Verification development for `src/felafax/trainer_engine/trainer.py`.

The file shallowly embeds the trainer module:
* `get_mesh` — the device-mesh builder;
* `_preprocess_batch` — the batch preprocessor (dict of tensors);
* `_cross_entropy_loss_and_accuracy` — the masked loss/accuracy formula,
  modelled over the reals with `Fin`-indexed tensors;
* `forward` — the next-token shift feeding the loss function;
* `train` — the epoch loop of `Trainer.train`, modelled as the trace of
  observable events (training steps, metric prints, checkpoint saves,
  the checkpoint wait barrier, and the Hugging Face export).
-/

/-! ### Device mesh builder (`get_mesh`) -/

/-- A JAX mesh as far as this module observes it: the shape passed to
`mesh_utils.create_device_mesh` and the axis names. -/
structure Mesh where
  shape : ℕ × ℕ × ℕ
  axisNames : List String
deriving DecidableEq

/-- Model of `get_mesh(num_tpus)`: shape `(1,2,2)` for 4 devices, `(2,2,2)` for 8,
`ValueError` otherwise.  Python ints are modelled as `ℤ`. -/
def get_mesh (num_tpus : ℤ) : Except String Mesh :=
  if num_tpus = 4 then
    Except.ok ⟨(1, 2, 2), ["batch", "fsdp", "mp"]⟩
  else if num_tpus = 8 then
    Except.ok ⟨(2, 2, 2), ["batch", "fsdp", "mp"]⟩
  else
    Except.error ("Invalid number of TPUs: " ++ toString num_tpus)

/-! ### Batch preprocessor (`_preprocess_batch`)

A batch is a Python dict mapping string keys to tensors.  A tensor value is
either a PyTorch tensor or a JAX array; both carry a 2-D integer payload and a
dtype.  Dicts are modelled as association lists in insertion order, with
`dictSet` reproducing Python's update-in-place-or-append-at-end semantics. -/

inductive Dtype where
  | int32
  | int64
  | float32
deriving DecidableEq

/-- A 2-D array: rows of integer entries plus a dtype tag. -/
structure Arr where
  data : List (List ℤ)
  dtype : Dtype
deriving DecidableEq

inductive TensorVal where
  | torch (a : Arr)
  | jaxArr (a : Arr)
deriving DecidableEq

/-- The underlying array of either kind of tensor. -/
def undArr : TensorVal → Arr
  | TensorVal.torch a => a
  | TensorVal.jaxArr a => a

/-- Conversion `v if isinstance(v, jax.Array) else jnp.array(v.numpy())`: PyTorch tensors
are converted to JAX arrays with the same payload; JAX arrays pass through. -/
def toJaxValue : TensorVal → TensorVal
  | TensorVal.jaxArr a => TensorVal.jaxArr a
  | TensorVal.torch a => TensorVal.jaxArr a

/-- Wrap an integer into the int32 range, as `astype(jnp.int32)` does. -/
def int32Wrap (x : ℤ) : ℤ := (x + 2 ^ 31) % 2 ^ 32 - 2 ^ 31

/-- Model of `.astype(jnp.int32)` on a 2-D array. -/
def astypeInt32 (a : Arr) : Arr :=
  ⟨a.data.map (fun row => row.map int32Wrap), Dtype.int32⟩

/-- Dimension `shape[0]` of a 2-D array. -/
def arrRows (a : Arr) : ℕ := a.data.length

/-- Dimension `shape[1]` of a 2-D array. -/
def arrCols (a : Arr) : ℕ := (a.data.headD []).length

/-- Model of `jnp.repeat(jnp.arange(cols)[None, :], rows, axis=0)`. -/
def positionIds (rows cols : ℕ) : Arr :=
  ⟨List.replicate rows ((List.range cols).map Int.ofNat), Dtype.int32⟩

/-- A Python dict of tensors, in insertion order. -/
abbrev Batch := List (String × TensorVal)

/-- Dict lookup: first entry with the given key. -/
def dictGet (k : String) : Batch → Option TensorVal
  | [] => none
  | p :: t => if p.1 = k then some p.2 else dictGet k t

/-- Dict assignment `d[k] = v`: replace the entry in place if the key is
present, otherwise append at the end (Python dicts keep insertion order). -/
def dictSet (l : Batch) (k : String) (v : TensorVal) : Batch :=
  if (dictGet k l).isSome then
    l.map (fun kv => if kv.1 = k then (k, v) else kv)
  else
    l ++ [(k, v)]

/-- Model of `_preprocess_batch`: convert every value to a JAX array, cast `input_ids`
and `labels` to int32, and add `position_ids` built from the shape of the cast
`input_ids`.  A missing `input_ids` or `labels` key (Python `KeyError`) is
modelled as `none`. -/
def _preprocess_batch (batch : Batch) : Option Batch :=
  let b1 : Batch := batch.map (fun kv => (kv.1, toJaxValue kv.2))
  (dictGet "input_ids" b1).bind (fun iv =>
    (dictGet "labels" b1).bind (fun lv =>
      let ida32 := astypeInt32 (undArr iv)
      let la32 := astypeInt32 (undArr lv)
      let b2 := dictSet b1 "input_ids" (TensorVal.jaxArr ida32)
      let b3 := dictSet b2 "labels" (TensorVal.jaxArr la32)
      some (dictSet b3 "position_ids"
        (TensorVal.jaxArr (positionIds (arrRows ida32) (arrCols ida32))))))

/-- An int32 value is in `[-2^31, 2^31)`. -/
def int32InRange (x : ℤ) : Prop := -(2 ^ 31) ≤ x ∧ x < 2 ^ 31

instance (x : ℤ) : Decidable (int32InRange x) := by
  unfold int32InRange; infer_instance

/-- A canonical int32 array: dtype tag `int32` and all entries in range. -/
def arrInt32Canonical (a : Arr) : Prop :=
  a.dtype = Dtype.int32 ∧ ∀ row ∈ a.data, ∀ x ∈ row, int32InRange x

instance (a : Arr) : Decidable (arrInt32Canonical a) := by
  unfold arrInt32Canonical; infer_instance

/-! ### Loss and accuracy (`_cross_entropy_loss_and_accuracy`)

Tensors are total functions out of `Fin`: logits `(batch, seq, vocab)` as
`Fin b → Fin s → Fin v → ℝ`, target ids as `Fin b → Fin s → Fin v`, the mask
(after its `astype(float32)`) as `Fin b → Fin s → ℝ`. -/

/-- Model of `jax.nn.log_softmax` over the vocabulary axis. -/
noncomputable def log_softmax {v : ℕ} (x : Fin v → ℝ) (j : Fin v) : ℝ :=
  x j - Real.log (∑ k, Real.exp (x k))

/-- Model of `jnp.argmax` over a list: index of the first occurrence of the maximum.
`bi`/`bv` are the best index and value so far, `i` the index of the head. -/
noncomputable def argmaxGo : ℕ → ℝ → ℕ → List ℝ → ℕ
  | bi, _, _, [] => bi
  | bi, bv, i, a :: rest =>
    if bv < a then argmaxGo i a (i + 1) rest else argmaxGo bi bv (i + 1) rest

noncomputable def argmaxList : List ℝ → ℕ
  | [] => 0
  | a :: rest => argmaxGo 0 a 1 rest

/-- Model of `jnp.argmax(x)` for a vocabulary vector. -/
noncomputable def argmaxVec {v : ℕ} (x : Fin v → ℝ) : ℕ :=
  argmaxList ((List.finRange v).map x)

/-- Model of `jnp.maximum(jnp.sum(mask, axis=-1), 1e-10)` for sequence `i`. -/
noncomputable def valid_text_length {b s : ℕ} (mask : Fin b → Fin s → ℝ)
    (i : Fin b) : ℝ :=
  max (∑ j, mask i j) (1e-10)

/-- The gathered log-probability of the target token at position `(i, j)`:
`take_along_axis(log_softmax(logits), tokens[..., None], -1)` squeezed. -/
noncomputable def token_log_prob {b s v : ℕ} (logits : Fin b → Fin s → Fin v → ℝ)
    (tokens : Fin b → Fin s → Fin v) (i : Fin b) (j : Fin s) : ℝ :=
  log_softmax (logits i j) (tokens i j)

/-- Model of `jnp.where(mask > 0.0, token_log_prob, 0.0)`. -/
noncomputable def masked_token_log_prob {b s v : ℕ}
    (logits : Fin b → Fin s → Fin v → ℝ) (tokens : Fin b → Fin s → Fin v)
    (mask : Fin b → Fin s → ℝ) (i : Fin b) (j : Fin s) : ℝ :=
  if mask i j > 0 then token_log_prob logits tokens i j else 0

/-- Sequence `i`'s summand inside the loss mean:
`jnp.sum(token_log_prob, axis=-1) / valid_text_length`. -/
noncomputable def lossSummand {b s v : ℕ} (logits : Fin b → Fin s → Fin v → ℝ)
    (tokens : Fin b → Fin s → Fin v) (mask : Fin b → Fin s → ℝ)
    (i : Fin b) : ℝ :=
  (∑ j, masked_token_log_prob logits tokens mask i j) / valid_text_length mask i

/-- Model of `jnp.where(mask > 0.0, jnp.argmax(logits, axis=-1) == tokens, False)` at
position `(i, j)`, as an indicator in `ℝ`. -/
noncomputable def correctInd {b s v : ℕ} (logits : Fin b → Fin s → Fin v → ℝ)
    (tokens : Fin b → Fin s → Fin v) (mask : Fin b → Fin s → ℝ)
    (i : Fin b) (j : Fin s) : ℝ :=
  if mask i j > 0 ∧ argmaxVec (logits i j) = (tokens i j : ℕ) then 1 else 0

/-- Sequence `i`'s summand inside the accuracy mean:
`jnp.sum(correct, axis=-1) / valid_text_length`. -/
noncomputable def accSummand {b s v : ℕ} (logits : Fin b → Fin s → Fin v → ℝ)
    (tokens : Fin b → Fin s → Fin v) (mask : Fin b → Fin s → ℝ)
    (i : Fin b) : ℝ :=
  (∑ j, correctInd logits tokens mask i j) / valid_text_length mask i

/-- The all-ones mask `jnp.ones(tokens.shape[:2])` used when the mask argument
is `None`. -/
noncomputable def defaultMask (b s : ℕ) : Fin b → Fin s → ℝ := fun _ _ => 1

/-- Model of `_cross_entropy_loss_and_accuracy(logits, tokens, mask)`, returning
`(loss, accuracy)`.  `jnp.mean` over the batch axis is sum divided by `b`;
the float32 casts of the code are identities in the real-number model. -/
noncomputable def _cross_entropy_loss_and_accuracy (b s v : ℕ)
    (logits : Fin b → Fin s → Fin v → ℝ) (tokens : Fin b → Fin s → Fin v)
    (maskOpt : Option (Fin b → Fin s → ℝ)) : ℝ × ℝ :=
  let mask := maskOpt.getD (defaultMask b s)
  (-((∑ i, lossSummand logits tokens mask i) / (b : ℝ)),
    (∑ i, accSummand logits tokens mask i) / (b : ℝ))

/-- Written from the spec sentence: loss is the negative mean over the batch
of (per-sequence sum of masked target-token log-softmax probabilities divided
by `max`(per-sequence mask sum, `1e-10`)). -/
noncomputable def specLoss (b s v : ℕ) (logits : Fin b → Fin s → Fin v → ℝ)
    (tokens : Fin b → Fin s → Fin v) (mask : Fin b → Fin s → ℝ) : ℝ :=
  -((∑ i, (∑ j, if mask i j > 0 then log_softmax (logits i j) (tokens i j) else 0) /
      max (∑ j, mask i j) (1e-10)) / (b : ℝ))

/-- Written from the spec sentence: accuracy is the mean over the batch of
(per-sequence count of masked positions where the argmax over the vocabulary
axis equals the target, divided by the same floored valid-token count). -/
noncomputable def specAccuracy (b s v : ℕ) (logits : Fin b → Fin s → Fin v → ℝ)
    (tokens : Fin b → Fin s → Fin v) (mask : Fin b → Fin s → ℝ) : ℝ :=
  (∑ i, (∑ j, if mask i j > 0 ∧ argmaxVec (logits i j) = (tokens i j : ℕ)
        then (1 : ℝ) else 0) /
      max (∑ j, mask i j) (1e-10)) / (b : ℝ)

/-! ### Forward pass (`Trainer.forward`)

The model is an opaque collaborator producing logits of sequence length
`s + 1` from the batch; `forward` shifts logits/labels/mask and calls the
loss function.  Total sequence length is written `s + 1` so that the shifted
length is `s`. -/

/-- A training batch as `Trainer.forward` reads it. -/
structure FBatch (b s v : ℕ) where
  input_ids : Fin b → Fin (s + 1) → ℤ
  labels : Fin b → Fin (s + 1) → Fin v
  attention_mask : Option (Fin b → Fin (s + 1) → ℝ)
  position_ids : Option (Fin b → Fin (s + 1) → ℤ)

/-- The model collaborator: `model(input_ids, attention_mask, position_ids)`
returning logits. -/
def LlamaModel (b s v : ℕ) : Type :=
  (Fin b → Fin (s + 1) → ℤ) → Option (Fin b → Fin (s + 1) → ℝ) →
    Option (Fin b → Fin (s + 1) → ℤ) → (Fin b → Fin (s + 1) → Fin v → ℝ)

/-- Model of `Trainer.forward`: run the model, shift `logits[..., :-1, :]`,
`labels[..., 1:]` and (when present) `attention_mask[..., 1:]`, and call
`_cross_entropy_loss_and_accuracy`. -/
noncomputable def forward {b s v : ℕ} (model : LlamaModel b s v)
    (batch : FBatch b s v) : ℝ × ℝ :=
  let logits := model batch.input_ids batch.attention_mask batch.position_ids
  let shifted_logits : Fin b → Fin s → Fin v → ℝ :=
    fun i j => logits i (Fin.castSucc j)
  let shifted_labels : Fin b → Fin s → Fin v :=
    fun i j => batch.labels i (Fin.succ j)
  let shifted_mask : Option (Fin b → Fin s → ℝ) :=
    match batch.attention_mask with
    | none => none
    | some m => some (fun i j => m i (Fin.succ j))
  _cross_entropy_loss_and_accuracy b s v shifted_logits shifted_labels shifted_mask

/-- Written from the spec sentence: drop the last sequence position. -/
def dropLastPos {b s : ℕ} {α : Type} (t : Fin b → Fin (s + 1) → α) :
    Fin b → Fin s → α :=
  fun i j => t i (Fin.castSucc j)

/-- Written from the spec sentence: drop the first sequence position. -/
def dropFirstPos {b s : ℕ} {α : Type} (t : Fin b → Fin (s + 1) → α) :
    Fin b → Fin s → α :=
  fun i j => t i (Fin.succ j)

/-! ### The epoch loop (`Trainer.train`)

The loop is modelled by the trace of its observable events.  `trainStep i`
records the body of the iteration with 0-based index `i` (the Python loop
variable `step`); `printMetrics k` records the progress line for the 1-based
step `k` (the code prints `prev_step = step + 1` of the previous iteration);
`saveCheckpoint k` records `checkpointer.save_checkpoint(..., step=k)`.
`numSteps = none` models `num_steps = None`. -/

inductive Event where
  | trainStep (idx : ℕ)
  | printMetrics (step : ℕ)
  | saveCheckpoint (step : ℕ)
  | waitUntilFinished
  | exportHF
deriving DecidableEq

/-- Model of `max_steps = self.trainer_config.num_steps or float("inf")`: Python `or`
replaces only falsy values (`None` and `0`) with infinity (`none`). -/
def pythonOrInf (numSteps : Option ℤ) : Option ℤ :=
  match numSteps with
  | none => none
  | some k => if k = 0 then none else some k

/-- The loop guard `if step >= max_steps: break` (`false` when
`max_steps` is infinity). -/
def breakCond : Option ℤ → ℕ → Bool
  | none, _ => false
  | some k, step => decide (k ≤ (step : ℤ))

/-- Events of the `for step, batch in enumerate(...)` loop, starting at
iteration index `i` with `rem` batches left in the loader. -/
def loopEvents (ms : Option ℤ) (ck : Bool) : ℕ → ℕ → List Event
  | _, 0 => []
  | i, rem + 1 =>
    if breakCond ms i then []
    else
      (if i = 0 then [] else [Event.printMetrics i]) ++
        Event.trainStep i ::
          ((if ck then [Event.saveCheckpoint (i + 1)] else []) ++
            loopEvents ms ck (i + 1) rem)

/-- The last value bound to the Python loop variable `step`, or `none` when
the loop body never started an iteration (empty loader). -/
def loopLast (ms : Option ℤ) : ℕ → ℕ → Option ℕ
  | _, 0 => none
  | i, rem + 1 =>
    if breakCond ms i then some i
    else some ((loopLast ms (i + 1) rem).getD i)

/-- Number of fully executed loop iterations starting at index `i` with `rem`
batches left. -/
def execCount (ms : Option ℤ) : ℕ → ℕ → ℕ
  | _, 0 => 0
  | i, rem + 1 =>
    if breakCond ms i then 0 else execCount ms (i + 1) rem + 1

/-- The Python `NameError` raised when the unbound loop variable `step` is
read in the final-checkpoint block. -/
def nameErrorMsg : String := "NameError: name step is not defined"

/-- Model of `Trainer.train` with `numSteps` the configured step cap, `hasCkpt` whether
a checkpointer is configured, and `m` the number of batches the loader yields.
Returns the event trace, or the error paired with the events emitted before
it. -/
def train (numSteps : Option ℤ) (hasCkpt : Bool) (m : ℕ) :
    Except (String × List Event) (List Event) :=
  let ms := pythonOrInf numSteps
  let evs := loopEvents ms hasCkpt 0 m
  if hasCkpt then
    match loopLast ms 0 m with
    | none => Except.error (nameErrorMsg, evs)
    | some s =>
        Except.ok (evs ++
          [Event.saveCheckpoint (s + 1), Event.waitUntilFinished, Event.exportHF])
  else
    Except.ok (evs ++ [Event.exportHF])

def isTrainStep : Event → Bool
  | Event.trainStep _ => true
  | _ => false

def isSave : Event → Bool
  | Event.saveCheckpoint _ => true
  | _ => false

/-- Number of executed training steps in a trace. -/
def numTrainSteps (evs : List Event) : ℕ := evs.countP isTrainStep

/-- Number of `save_checkpoint` calls in a trace. -/
def numSaves (evs : List Event) : ℕ := evs.countP isSave

/-- The trace of `train` with no step cap, a checkpointer, and a two-batch
loader; used to instantiate the checkpoint-sequencing theorem.  (The final
unconditional checkpoint reuses tag `step + 1 = 2` because the loop variable
still holds the last iteration index.) -/
def evsTwoStep : List Event :=
  [Event.trainStep 0, Event.saveCheckpoint 1, Event.printMetrics 1,
    Event.trainStep 1, Event.saveCheckpoint 2, Event.saveCheckpoint 2,
    Event.waitUntilFinished, Event.exportHF]

/-- A concrete raw batch (PyTorch tensors, int64) used to instantiate the
preprocessing theorem. -/
def rawBatchExample : Batch :=
  [("input_ids", TensorVal.torch ⟨[[5, 6]], Dtype.int64⟩),
    ("labels", TensorVal.torch ⟨[[7, 8]], Dtype.int64⟩)]

/-- The preprocessed form of `rawBatchExample`. -/
def preppedBatchExample : Batch :=
  [("input_ids", TensorVal.jaxArr ⟨[[5, 6]], Dtype.int32⟩),
    ("labels", TensorVal.jaxArr ⟨[[7, 8]], Dtype.int32⟩),
    ("position_ids", TensorVal.jaxArr ⟨[[0, 1]], Dtype.int32⟩)]

/-- A batch already in canonical form (all JAX, int32 ids/labels,
`position_ids` present); it is a fixed point of `_preprocess_batch`. -/
def canonicalBatchExample : Batch :=
  [("input_ids", TensorVal.jaxArr ⟨[[1, 2]], Dtype.int32⟩),
    ("labels", TensorVal.jaxArr ⟨[[3, 4]], Dtype.int32⟩),
    ("position_ids", TensorVal.jaxArr ⟨[[0, 1]], Dtype.int32⟩)]

/-! ## Claim theorems -/

/-- C3: `get_mesh` yields a mesh with axes `"batch"`, `"fsdp"`, `"mp"` of
shape `(1,2,2)` for 4 devices and `(2,2,2)` for 8 devices, and raises a
`ValueError` exactly when the device count is neither 4 nor 8. -/
theorem c3_mesh_topology :
    get_mesh 4 = Except.ok ⟨(1, 2, 2), ["batch", "fsdp", "mp"]⟩ ∧
    get_mesh 8 = Except.ok ⟨(2, 2, 2), ["batch", "fsdp", "mp"]⟩ ∧
    ∀ n : ℤ, (∃ e, get_mesh n = Except.error e) ↔ ¬(n = 4 ∨ n = 8) := by
  refine ⟨rfl, rfl, fun n => ?_⟩
  by_cases h4 : n = 4
  · subst h4; simp [get_mesh]
  · by_cases h8 : n = 8
    · subst h8; simp [get_mesh]
    · simp [get_mesh, h4, h8]

/-- C1: `_cross_entropy_loss_and_accuracy` returns exactly the loss and
accuracy formulas stated by the spec (negative batch mean of per-sequence
masked log-prob sums divided by the `1e-10`-floored valid-token count, and
the batch mean of masked argmax-correctness counts divided by the same
floor), with the mask defaulting to all-ones when absent. -/
theorem c1_loss_accuracy_formula (b s v : ℕ) (logits : Fin b → Fin s → Fin v → ℝ)
    (tokens : Fin b → Fin s → Fin v) (maskOpt : Option (Fin b → Fin s → ℝ)) :
    _cross_entropy_loss_and_accuracy b s v logits tokens maskOpt =
      (specLoss b s v logits tokens (maskOpt.getD (defaultMask b s)),
        specAccuracy b s v logits tokens (maskOpt.getD (defaultMask b s))) ∧
    _cross_entropy_loss_and_accuracy b s v logits tokens none =
      _cross_entropy_loss_and_accuracy b s v logits tokens (some (defaultMask b s)) :=
  ⟨rfl, rfl⟩

/-- C2: a sequence whose mask row is entirely zero contributes exactly `0`
both to the loss aggregation and to the accuracy aggregation (the `1e-10`
floor turns the `0 / 0` division into `0 / 1e-10 = 0`). -/
theorem c2_fully_masked_row (b s v : ℕ) (logits : Fin b → Fin s → Fin v → ℝ)
    (tokens : Fin b → Fin s → Fin v) (mask : Fin b → Fin s → ℝ) (i : Fin b)
    (h : ∀ j, mask i j = 0) :
    lossSummand logits tokens mask i = 0 ∧ accSummand logits tokens mask i = 0 := by
  constructor
  · have hz : ∀ j, masked_token_log_prob logits tokens mask i j = 0 := by
      intro j
      unfold masked_token_log_prob
      rw [h j]
      norm_num
    simp [lossSummand, hz]
  · have ha : ∀ j, correctInd logits tokens mask i j = 0 := by
      intro j
      unfold correctInd
      rw [h j, if_neg]
      rintro ⟨h0, -⟩
      exact lt_irrefl 0 h0
    simp [accSummand, ha]

/-- C2 witness: concrete instance with `b = s = v = 1` and the all-zero
mask. -/
theorem c2_fully_masked_row_witness :
    (∀ j : Fin 1, (fun (_ : Fin 1) (_ : Fin 1) => (0 : ℝ)) (0 : Fin 1) j = 0) ∧
    @lossSummand 1 1 1 (fun _ _ _ => 0) (fun _ _ => 0) (fun _ _ => 0) 0 = 0 ∧
    @accSummand 1 1 1 (fun _ _ _ => 0) (fun _ _ => 0) (fun _ _ => 0) 0 = 0 :=
  ⟨fun _ => rfl,
    (c2_fully_masked_row 1 1 1 (fun _ _ _ => 0) (fun _ _ => 0) (fun _ _ => 0) 0
      (fun _ => rfl)).1,
    (c2_fully_masked_row 1 1 1 (fun _ _ _ => 0) (fun _ _ => 0) (fun _ _ => 0) 0
      (fun _ => rfl)).2⟩

/-- C5: `Trainer.forward` feeds the loss function the logits with the last
sequence position dropped, the labels with the first position dropped, and
the attention mask shifted like the labels when present (`Option.map` sends
an absent mask to an absent mask). -/
theorem c5_forward_shift (b s v : ℕ) (model : LlamaModel b s v)
    (batch : FBatch b s v) :
    forward model batch =
      _cross_entropy_loss_and_accuracy b s v
        (dropLastPos (model batch.input_ids batch.attention_mask batch.position_ids))
        (dropFirstPos batch.labels)
        (Option.map dropFirstPos batch.attention_mask) := by
  obtain ⟨ii, ll, am, pp⟩ := batch
  cases am <;> rfl

/-- C9: with a checkpointer configured and a loader yielding no batches,
`Trainer.train` hits a `NameError` in the final-checkpoint block (the loop
variable `step` was never bound); no checkpoint is saved and export is never
reached — the event list accompanying the error is empty. -/
theorem c9_empty_loader_name_error (numSteps : Option ℤ) :
    train numSteps true 0 = Except.error (nameErrorMsg, []) := rfl

/-! ## Lemmas about the epoch-loop trace -/

theorem execCount_none : ∀ rem i, execCount none i rem = rem := by
  intro rem
  induction rem with
  | zero => intro i; rfl
  | succ r ih => intro i; simp [execCount, breakCond, ih]

theorem execCount_nonpos (k : ℤ) (hk : k ≤ 0) (m : ℕ) :
    execCount (some k) 0 m = 0 := by
  cases m with
  | zero => rfl
  | succ r =>
    have hb : breakCond (some k) 0 = true := by
      simp only [breakCond, Nat.cast_zero, decide_eq_true_eq]
      exact hk
    simp [execCount, hb]

theorem countP_isTrainStep_loopEvents (ms : Option ℤ) (ck : Bool) :
    ∀ rem i, (loopEvents ms ck i rem).countP isTrainStep = execCount ms i rem := by
  intro rem
  induction rem with
  | zero => intro i; rfl
  | succ r ih =>
    intro i
    by_cases hb : breakCond ms i
    · simp [loopEvents, execCount, hb]
    · have hpm : List.countP isTrainStep
          (if i = 0 then ([] : List Event) else [Event.printMetrics i]) = 0 := by
        split <;> rfl
      have hsc : List.countP isTrainStep
          (if ck then [Event.saveCheckpoint (i + 1)] else ([] : List Event)) = 0 := by
        split <;> rfl
      simp [loopEvents, execCount, if_neg hb, List.countP_append, List.countP_cons,
        hpm, hsc, ih, isTrainStep]

theorem countP_isSave_loopEvents (ms : Option ℤ) :
    ∀ rem i, (loopEvents ms true i rem).countP isSave = execCount ms i rem := by
  intro rem
  induction rem with
  | zero => intro i; rfl
  | succ r ih =>
    intro i
    by_cases hb : breakCond ms i
    · simp [loopEvents, execCount, hb]
    · have hpm : List.countP isSave
          (if i = 0 then ([] : List Event) else [Event.printMetrics i]) = 0 := by
        split <;> rfl
      simp [loopEvents, execCount, if_neg hb, List.countP_append,
        List.countP_cons, hpm, ih, isSave]

theorem mem_trainStep_loopEvents (ms : Option ℤ) (ck : Bool) :
    ∀ rem i k, Event.trainStep k ∈ loopEvents ms ck i rem ↔
      (i ≤ k ∧ k < i + execCount ms i rem) := by
  intro rem
  induction rem with
  | zero =>
    intro i k
    simp only [loopEvents, List.not_mem_nil, execCount, false_iff]
    omega
  | succ r ih =>
    intro i k
    by_cases hb : breakCond ms i
    · simp only [loopEvents, execCount, if_pos hb, List.not_mem_nil, false_iff]
      omega
    · have hpm : (Event.trainStep k ∈
          if i = 0 then ([] : List Event) else [Event.printMetrics i]) ↔ False := by
        split <;> simp
      have hsc : (Event.trainStep k ∈
          if ck then [Event.saveCheckpoint (i + 1)] else ([] : List Event)) ↔ False := by
        split <;> simp
      simp [loopEvents, execCount, if_neg hb, List.mem_append, List.mem_cons,
        hpm, hsc, ih]
      omega

theorem mem_printMetrics_loopEvents (ms : Option ℤ) (ck : Bool) :
    ∀ rem i k, Event.printMetrics k ∈ loopEvents ms ck i rem ↔
      (1 ≤ k ∧ i ≤ k ∧ k < i + execCount ms i rem) := by
  intro rem
  induction rem with
  | zero =>
    intro i k
    simp only [loopEvents, List.not_mem_nil, execCount, false_iff]
    omega
  | succ r ih =>
    intro i k
    by_cases hb : breakCond ms i
    · simp only [loopEvents, execCount, if_pos hb, List.not_mem_nil, false_iff]
      omega
    · have hpm : (Event.printMetrics k ∈
          if i = 0 then ([] : List Event) else [Event.printMetrics i]) ↔
            (¬i = 0 ∧ k = i) := by
        split_ifs with h0
        · simp [h0]
        · simp [h0]
      have hsc : (Event.printMetrics k ∈
          if ck then [Event.saveCheckpoint (i + 1)] else ([] : List Event)) ↔ False := by
        split <;> simp
      simp [loopEvents, execCount, if_neg hb, List.mem_append, List.mem_cons,
        hpm, hsc, ih]
      omega

theorem mem_saveCheckpoint_loopEvents (ms : Option ℤ) :
    ∀ rem i k, Event.saveCheckpoint k ∈ loopEvents ms true i rem ↔
      (i + 1 ≤ k ∧ k ≤ i + execCount ms i rem) := by
  intro rem
  induction rem with
  | zero =>
    intro i k
    simp only [loopEvents, List.not_mem_nil, execCount, false_iff]
    omega
  | succ r ih =>
    intro i k
    by_cases hb : breakCond ms i
    · simp only [loopEvents, execCount, if_pos hb, List.not_mem_nil, false_iff]
      omega
    · have hpm : (Event.saveCheckpoint k ∈
          if i = 0 then ([] : List Event) else [Event.printMetrics i]) ↔ False := by
        split <;> simp
      simp [loopEvents, execCount, if_neg hb, List.mem_append,
        List.mem_cons, hpm, ih]
      omega

theorem wait_not_mem_loopEvents (ms : Option ℤ) (ck : Bool) :
    ∀ rem i, Event.waitUntilFinished ∉ loopEvents ms ck i rem := by
  intro rem
  induction rem with
  | zero => intro i; simp [loopEvents]
  | succ r ih =>
    intro i
    by_cases hb : breakCond ms i
    · simp [loopEvents, hb]
    · intro hmem
      simp only [loopEvents, if_neg hb, List.mem_append, List.mem_cons] at hmem
      rcases hmem with h1 | h1 | h1 | h1
      · revert h1
        split <;> simp
      · cases h1
      · revert h1
        split <;> simp
      · exact ih (i + 1) h1

theorem export_not_mem_loopEvents (ms : Option ℤ) (ck : Bool) :
    ∀ rem i, Event.exportHF ∉ loopEvents ms ck i rem := by
  intro rem
  induction rem with
  | zero => intro i; simp [loopEvents]
  | succ r ih =>
    intro i
    by_cases hb : breakCond ms i
    · simp [loopEvents, hb]
    · intro hmem
      simp only [loopEvents, if_neg hb, List.mem_append, List.mem_cons] at hmem
      rcases hmem with h1 | h1 | h1 | h1
      · revert h1
        split <;> simp
      · cases h1
      · revert h1
        split <;> simp
      · exact ih (i + 1) h1

theorem print_adjacent_loopEvents (ms : Option ℤ) (ck : Bool) :
    ∀ rem i k, 1 ≤ k → i ≤ k → k < i + execCount ms i rem →
      ∃ pre post, loopEvents ms ck i rem =
        pre ++ Event.printMetrics k :: Event.trainStep k :: post := by
  intro rem
  induction rem with
  | zero =>
    intro i k _ _ h3
    rw [execCount] at h3
    omega
  | succ r ih =>
    intro i k h1 h2 h3
    by_cases hb : breakCond ms i
    · exfalso
      simp [execCount, hb] at h3
      omega
    · by_cases hik : k = i
      · subst hik
        refine ⟨[], (if ck then [Event.saveCheckpoint (k + 1)] else []) ++
          loopEvents ms ck (k + 1) r, ?_⟩
        simp [loopEvents, hb, Nat.one_le_iff_ne_zero.mp h1]
      · have h3' : k < (i + 1) + execCount ms (i + 1) r := by
          simp [execCount, hb] at h3
          omega
        obtain ⟨pre, post, hpp⟩ := ih (i + 1) k h1 (by omega) h3'
        refine ⟨((if i = 0 then [] else [Event.printMetrics i]) ++
          Event.trainStep i :: (if ck then [Event.saveCheckpoint (i + 1)] else [])) ++ pre,
          post, ?_⟩
        simp [loopEvents, hb, hpp, List.append_assoc]

theorem train_ok_cases (numSteps : Option ℤ) (ck : Bool) (m : ℕ) (evs : List Event)
    (h : train numSteps ck m = Except.ok evs) :
    (ck = true ∧ ∃ s, loopLast (pythonOrInf numSteps) 0 m = some s ∧
      evs = loopEvents (pythonOrInf numSteps) ck 0 m ++
        [Event.saveCheckpoint (s + 1), Event.waitUntilFinished, Event.exportHF]) ∨
    (ck = false ∧ evs = loopEvents (pythonOrInf numSteps) ck 0 m ++ [Event.exportHF]) := by
  simp only [train] at h
  cases ck with
  | false =>
    right
    simp only [Bool.false_eq_true, if_false] at h
    exact ⟨rfl, (Except.ok.inj h).symm⟩
  | true =>
    left
    simp only [if_true] at h
    cases hl : loopLast (pythonOrInf numSteps) 0 m with
    | none => rw [hl] at h; cases h
    | some s =>
      rw [hl] at h
      exact ⟨rfl, s, rfl, (Except.ok.inj h).symm⟩

theorem numTrainSteps_train (numSteps : Option ℤ) (ck : Bool) (m : ℕ) (evs : List Event)
    (h : train numSteps ck m = Except.ok evs) :
    numTrainSteps evs = execCount (pythonOrInf numSteps) 0 m := by
  rcases train_ok_cases numSteps ck m evs h with ⟨-, s, -, rfl⟩ | ⟨-, rfl⟩ <;>
    simp [numTrainSteps, List.countP_append, countP_isTrainStep_loopEvents, isTrainStep]

/-- C4 counterexample: the claim asserts that every non-positive step cap
runs the loop to loader exhaustion, but with `num_steps = -1` and a one-batch
loader the code executes zero steps: `-1` is truthy, so Python's
`num_steps or float("inf")` keeps it, and `0 >= -1` breaks immediately. -/
theorem c4_counterexample :
    train (some (-1)) false 1 = Except.ok [Event.exportHF] ∧
    numTrainSteps [Event.exportHF] = 0 ∧ (0 : ℕ) ≠ 1 :=
  ⟨rfl, rfl, by decide⟩

/-- C4 (amended): with the step cap unset (`None`) or equal to `0`, the loop
executes one training step per batch until the loader is exhausted; with a
negative cap, however, the loop executes zero steps (Python's `or` treats only
falsy values as unset, and `step >= max_steps` then breaks at once). -/
theorem c4_amended_step_cap (numSteps : Option ℤ) (ck : Bool) (m : ℕ)
    (evs : List Event) (hok : train numSteps ck m = Except.ok evs) :
    ((numSteps = none ∨ numSteps = some 0) → numTrainSteps evs = m) ∧
    (∀ k : ℤ, numSteps = some k → k < 0 → numTrainSteps evs = 0) := by
  have hcount := numTrainSteps_train numSteps ck m evs hok
  constructor
  · rintro (rfl | rfl)
    · rw [hcount]
      exact execCount_none m 0
    · rw [hcount]
      show execCount (if (0 : ℤ) = 0 then none else some 0) 0 m = m
      rw [if_pos rfl]
      exact execCount_none m 0
  · rintro k rfl hk
    rw [hcount]
    show execCount (if k = 0 then none else some k) 0 m = 0
    rw [if_neg (by omega)]
    exact execCount_nonpos k (le_of_lt hk) m

/-- C4 witness: cap `None`, two batches — both are consumed. -/
theorem c4_amended_step_cap_witness :
    train none false 2 = Except.ok
      [Event.trainStep 0, Event.printMetrics 1, Event.trainStep 1, Event.exportHF] ∧
    numTrainSteps
      [Event.trainStep 0, Event.printMetrics 1, Event.trainStep 1, Event.exportHF] = 2 :=
  ⟨rfl, (c4_amended_step_cap none false 2 _ rfl).1 (Or.inl rfl)⟩

/-- C8: in a run with a checkpointer that executes `n ≥ 1` training steps,
`save_checkpoint` is invoked exactly `n + 1` times (tags `1..n` inside the
loop plus the unconditional final save), every step's tag is saved, and
`wait_until_finished` occurs exactly once — after every save — followed by
exactly one export. -/
theorem c8_checkpoint_sequencing (numSteps : Option ℤ) (m n : ℕ) (evs : List Event)
    (hok : train numSteps true m = Except.ok evs)
    (hn : numTrainSteps evs = n) (hpos : 1 ≤ n) :
    numSaves evs = n + 1 ∧
    (∀ k, 1 ≤ k → k ≤ n → Event.saveCheckpoint k ∈ evs) ∧
    ∃ pre, evs = pre ++ [Event.waitUntilFinished, Event.exportHF] ∧
      Event.waitUntilFinished ∉ pre ∧ Event.exportHF ∉ pre := by
  have hcount := numTrainSteps_train numSteps true m evs hok
  have hexec : execCount (pythonOrInf numSteps) 0 m = n := by rw [← hcount, hn]
  rcases train_ok_cases numSteps true m evs hok with ⟨-, s, -, rfl⟩ | ⟨hf, -⟩
  · refine ⟨?_, ?_, ?_⟩
    · simp [numSaves, List.countP_append, countP_isSave_loopEvents, isSave, hexec]
    · intro k hk1 hkn
      rw [List.mem_append]
      left
      rw [mem_saveCheckpoint_loopEvents]
      omega
    · refine ⟨loopEvents (pythonOrInf numSteps) true 0 m ++ [Event.saveCheckpoint (s + 1)],
        by simp, ?_, ?_⟩
      · simp [List.mem_append, wait_not_mem_loopEvents]
      · simp [List.mem_append, export_not_mem_loopEvents]
  · cases hf

/-- C8 witness: no cap, checkpointer on, two batches: three saves, one wait,
one export after the wait. -/
theorem c8_checkpoint_sequencing_witness :
    train none true 2 = Except.ok evsTwoStep ∧
    numTrainSteps evsTwoStep = 2 ∧ 1 ≤ 2 ∧
    (numSaves evsTwoStep = 2 + 1 ∧
      (∀ k, 1 ≤ k → k ≤ 2 → Event.saveCheckpoint k ∈ evsTwoStep) ∧
      ∃ pre, evsTwoStep = pre ++ [Event.waitUntilFinished, Event.exportHF] ∧
        Event.waitUntilFinished ∉ pre ∧ Event.exportHF ∉ pre) :=
  ⟨rfl, rfl, by decide, c8_checkpoint_sequencing none 2 2 evsTwoStep rfl rfl (by decide)⟩

/-- C10: in a run executing `n ≥ 1` steps, the metric line for step `k`
appears exactly for `1 ≤ k < n`, each immediately before the training step of
iteration index `k` (the start of the next iteration); the metrics of the
final step `n` are never printed, and no metric print follows the loop. -/
theorem c10_deferred_metric_prints (numSteps : Option ℤ) (ck : Bool) (m n : ℕ)
    (evs : List Event) (hok : train numSteps ck m = Except.ok evs)
    (hn : numTrainSteps evs = n) (hpos : 1 ≤ n) :
    (∀ k, Event.printMetrics k ∈ evs ↔ (1 ≤ k ∧ k < n)) ∧
    (∀ k, 1 ≤ k → k < n → ∃ pre post,
      evs = pre ++ Event.printMetrics k :: Event.trainStep k :: post) := by
  have hcount := numTrainSteps_train numSteps ck m evs hok
  have hexec : execCount (pythonOrInf numSteps) 0 m = n := by rw [← hcount, hn]
  obtain ⟨tail, rfl, htail⟩ :
      ∃ tail, evs = loopEvents (pythonOrInf numSteps) ck 0 m ++ tail ∧
        ∀ k, Event.printMetrics k ∉ tail := by
    rcases train_ok_cases numSteps ck m evs hok with ⟨-, s, -, rfl⟩ | ⟨-, rfl⟩
    · exact ⟨_, rfl, fun k => by simp⟩
    · exact ⟨_, rfl, fun k => by simp⟩
  constructor
  · intro k
    rw [List.mem_append, or_iff_left (htail k), mem_printMetrics_loopEvents, hexec]
    omega
  · intro k hk1 hkn
    obtain ⟨pre, post, hpp⟩ :=
      print_adjacent_loopEvents (pythonOrInf numSteps) ck m 0 k hk1 (by omega)
        (by rw [hexec]; omega)
    refine ⟨pre, post ++ tail, ?_⟩
    rw [hpp]
    simp

/-- C10 witness: no cap, two batches: step 1's metrics are printed right
before step 2's training step; step 2's metrics are never printed. -/
theorem c10_deferred_metric_prints_witness :
    train none false 2 = Except.ok
      [Event.trainStep 0, Event.printMetrics 1, Event.trainStep 1, Event.exportHF] ∧
    numTrainSteps
      [Event.trainStep 0, Event.printMetrics 1, Event.trainStep 1, Event.exportHF] = 2 ∧
    1 ≤ 2 ∧
    ((∀ k, Event.printMetrics k ∈
        [Event.trainStep 0, Event.printMetrics 1, Event.trainStep 1, Event.exportHF] ↔
          (1 ≤ k ∧ k < 2)) ∧
      (∀ k, 1 ≤ k → k < 2 → ∃ pre post,
        [Event.trainStep 0, Event.printMetrics 1, Event.trainStep 1, Event.exportHF] =
          pre ++ Event.printMetrics k :: Event.trainStep k :: post)) :=
  ⟨rfl, rfl, by decide,
    c10_deferred_metric_prints none false 2 2
      [Event.trainStep 0, Event.printMetrics 1, Event.trainStep 1, Event.exportHF]
      rfl rfl (by decide)⟩

/-! ## Lemmas about the batch-dict model -/

theorem toJaxValue_eq (v : TensorVal) : toJaxValue v = TensorVal.jaxArr (undArr v) := by
  cases v <;> rfl

theorem undArr_toJax (v : TensorVal) : undArr (toJaxValue v) = undArr v := by
  cases v <;> rfl

theorem dictGet_map_snd (f : TensorVal → TensorVal) (k : String) (l : Batch) :
    dictGet k (l.map (fun kv => (kv.1, f kv.2))) = (dictGet k l).map f := by
  induction l with
  | nil => rfl
  | cons q t ih =>
    by_cases hq : q.1 = k
    · simp [dictGet, hq]
    · simp [dictGet, hq, ih]

theorem dictGet_none_not_key (l : Batch) (k : String) (h : dictGet k l = none) :
    ∀ p ∈ l, p.1 ≠ k := by
  induction l with
  | nil => intro p hp; cases hp
  | cons q t ih =>
    intro p hp
    unfold dictGet at h
    by_cases hq : q.1 = k
    · rw [if_pos hq] at h; cases h
    · rw [if_neg hq] at h
      rcases List.mem_cons.mp hp with rfl | hp2
      · exact hq
      · exact ih h p hp2

theorem dictGet_replace (l : Batch) (k : String) (v : TensorVal) :
    dictGet k (l.map (fun kv => if kv.1 = k then (k, v) else kv)) =
      (dictGet k l).map (fun _ => v) := by
  induction l with
  | nil => rfl
  | cons q t ih =>
    by_cases hq : q.1 = k
    · simp [dictGet, hq]
    · simp [dictGet, hq, ih]

theorem dictGet_replace_ne (l : Batch) (k k2 : String) (v : TensorVal)
    (hne : k2 ≠ k) :
    dictGet k2 (l.map (fun kv => if kv.1 = k then (k, v) else kv)) =
      dictGet k2 l := by
  induction l with
  | nil => rfl
  | cons q t ih =>
    simp only [List.map_cons, dictGet]
    by_cases hq : q.1 = k
    · rw [if_pos hq]
      rw [if_neg (fun h : (k, v).1 = k2 => hne h.symm),
        if_neg (fun h : q.1 = k2 => hne ((hq.symm.trans h).symm)), ih]
    · rw [if_neg hq]
      by_cases hq2 : q.1 = k2
      · rw [if_pos hq2, if_pos hq2]
      · rw [if_neg hq2, if_neg hq2, ih]

theorem dictGet_append_single (l : Batch) (k : String) (v : TensorVal)
    (h : dictGet k l = none) :
    dictGet k (l ++ [(k, v)]) = some v := by
  induction l with
  | nil => simp [dictGet]
  | cons q t ih =>
    simp only [dictGet] at h
    simp only [List.cons_append, dictGet]
    by_cases hq : q.1 = k
    · rw [if_pos hq] at h; cases h
    · rw [if_neg hq] at h
      rw [if_neg hq]
      exact ih h

theorem dictGet_append_single_ne (l : Batch) (k k2 : String) (v : TensorVal)
    (hne : k2 ≠ k) :
    dictGet k2 (l ++ [(k, v)]) = dictGet k2 l := by
  induction l with
  | nil =>
    simp only [List.nil_append, dictGet]
    rw [if_neg (fun h : (k, v).1 = k2 => hne h.symm)]
  | cons q t ih =>
    simp only [List.cons_append, dictGet]
    by_cases hq : q.1 = k2
    · rw [if_pos hq, if_pos hq]
    · rw [if_neg hq, if_neg hq]
      exact ih

theorem dictSet_get_self (l : Batch) (k : String) (v : TensorVal) :
    dictGet k (dictSet l k v) = some v := by
  unfold dictSet
  by_cases h : (dictGet k l).isSome
  · rw [if_pos h, dictGet_replace]
    obtain ⟨w, hw⟩ := Option.isSome_iff_exists.mp h
    rw [hw]
    rfl
  · rw [if_neg h]
    exact dictGet_append_single l k v (Option.not_isSome_iff_eq_none.mp h)

theorem dictSet_get_ne (l : Batch) (k k2 : String) (v : TensorVal)
    (hne : k2 ≠ k) :
    dictGet k2 (dictSet l k v) = dictGet k2 l := by
  unfold dictSet
  by_cases h : (dictGet k l).isSome
  · rw [if_pos h]
    exact dictGet_replace_ne l k k2 v hne
  · rw [if_neg h]
    exact dictGet_append_single_ne l k k2 v hne

theorem dictSet_uniform (l : Batch) (k : String) (v : TensorVal) :
    ∀ p ∈ dictSet l k v, p.1 = k → p.2 = v := by
  unfold dictSet
  by_cases h : (dictGet k l).isSome
  · rw [if_pos h]
    intro p hp hk
    rcases List.mem_map.mp hp with ⟨q, hq, hpq⟩
    subst hpq
    by_cases hqk : q.1 = k
    · rw [if_pos hqk]
    · rw [if_neg hqk] at hk ⊢
      exact absurd hk hqk
  · rw [if_neg h]
    intro p hp hk
    rcases List.mem_append.mp hp with hp2 | hp2
    · exact absurd hk
        (dictGet_none_not_key l k (Option.not_isSome_iff_eq_none.mp h) p hp2)
    · rcases List.mem_singleton.mp hp2 with rfl
      rfl

theorem dictSet_preserve_uniform (l : Batch) (k k2 : String) (v v2 : TensorVal)
    (hne : k ≠ k2) (hu : ∀ p ∈ l, p.1 = k → p.2 = v) :
    ∀ p ∈ dictSet l k2 v2, p.1 = k → p.2 = v := by
  unfold dictSet
  by_cases h : (dictGet k2 l).isSome
  · rw [if_pos h]
    intro p hp hk
    rcases List.mem_map.mp hp with ⟨q, hq, hpq⟩
    subst hpq
    by_cases hqk : q.1 = k2
    · rw [if_pos hqk] at hk ⊢
      exact absurd hk (Ne.symm hne)
    · rw [if_neg hqk] at hk ⊢
      exact hu q hq hk
  · rw [if_neg h]
    intro p hp hk
    rcases List.mem_append.mp hp with hp2 | hp2
    · exact hu p hp2 hk
    · rcases List.mem_singleton.mp hp2 with rfl
      exact absurd hk (Ne.symm hne)

theorem dictSet_forall_values (P : TensorVal → Prop) (l : Batch) (k : String)
    (v : TensorVal) (hl : ∀ p ∈ l, P p.2) (hv : P v) :
    ∀ p ∈ dictSet l k v, P p.2 := by
  unfold dictSet
  by_cases h : (dictGet k l).isSome
  · rw [if_pos h]
    intro p hp
    rcases List.mem_map.mp hp with ⟨q, hq, hpq⟩
    subst hpq
    by_cases hqk : q.1 = k
    · rw [if_pos hqk]
      exact hv
    · rw [if_neg hqk]
      exact hl q hq
  · rw [if_neg h]
    intro p hp
    rcases List.mem_append.mp hp with hp2 | hp2
    · exact hl p hp2
    · rcases List.mem_singleton.mp hp2 with rfl
      exact hv

theorem replace_eq_self (l : Batch) (k : String) (v : TensorVal)
    (hu : ∀ p ∈ l, p.1 = k → p.2 = v) :
    l.map (fun kv => if kv.1 = k then (k, v) else kv) = l := by
  induction l with
  | nil => rfl
  | cons q t ih =>
    obtain ⟨q1, q2⟩ := q
    simp only [List.map_cons]
    congr 1
    · by_cases hq : q1 = k
      · have hv2 : q2 = v := hu (q1, q2) (List.mem_cons_self _ _) hq
        rw [if_pos hq, hq, hv2]
      · rw [if_neg hq]
    · exact ih (fun p hp hk => hu p (List.mem_cons_of_mem _ hp) hk)

theorem dictSet_eq_self (l : Batch) (k : String) (v : TensorVal)
    (hget : dictGet k l = some v) (hu : ∀ p ∈ l, p.1 = k → p.2 = v) :
    dictSet l k v = l := by
  unfold dictSet
  rw [if_pos (by rw [hget]; rfl)]
  exact replace_eq_self l k v hu

theorem map_toJax_eq_self (l : Batch)
    (hj : ∀ p ∈ l, ∃ a, p.2 = TensorVal.jaxArr a) :
    l.map (fun kv => (kv.1, toJaxValue kv.2)) = l := by
  induction l with
  | nil => rfl
  | cons q t ih =>
    obtain ⟨q1, q2⟩ := q
    obtain ⟨a, ha⟩ := hj (q1, q2) (List.mem_cons_self _ _)
    simp only at ha
    subst ha
    simp only [List.map_cons]
    congr 1
    exact ih (fun p hp => hj p (List.mem_cons_of_mem _ hp))

theorem int32Wrap_idem (x : ℤ) : int32Wrap (int32Wrap x) = int32Wrap x := by
  unfold int32Wrap
  have h1 : (2 : ℤ) ^ 31 = 2147483648 := by norm_num
  have h2 : (2 : ℤ) ^ 32 = 4294967296 := by norm_num
  rw [h1, h2]
  omega

theorem astypeInt32_idem (a : Arr) : astypeInt32 (astypeInt32 a) = astypeInt32 a := by
  unfold astypeInt32
  simp [List.map_map, Function.comp_def, int32Wrap_idem]

theorem arrRows_astype (a : Arr) : arrRows (astypeInt32 a) = arrRows a := by
  unfold arrRows astypeInt32
  simp

theorem arrCols_astype (a : Arr) : arrCols (astypeInt32 a) = arrCols a := by
  unfold arrCols astypeInt32
  cases h : a.data with
  | nil => simp [h]
  | cons r t => simp [h]

theorem preprocess_out_spec (batch out : Batch)
    (h : _preprocess_batch batch = some out) :
    ∃ iv lv, dictGet "input_ids" batch = some iv ∧
      dictGet "labels" batch = some lv ∧
      out = dictSet (dictSet (dictSet
          (batch.map (fun kv => (kv.1, toJaxValue kv.2)))
          "input_ids" (TensorVal.jaxArr (astypeInt32 (undArr iv))))
          "labels" (TensorVal.jaxArr (astypeInt32 (undArr lv))))
          "position_ids" (TensorVal.jaxArr (positionIds
            (arrRows (astypeInt32 (undArr iv)))
            (arrCols (astypeInt32 (undArr iv))))) := by
  simp only [_preprocess_batch] at h
  rw [dictGet_map_snd, dictGet_map_snd] at h
  cases hiv : dictGet "input_ids" batch with
  | none => rw [hiv] at h; cases h
  | some iv =>
    rw [hiv] at h
    cases hlv : dictGet "labels" batch with
    | none => rw [hlv] at h; cases h
    | some lv =>
      rw [hlv] at h
      simp only [Option.map_some', Option.some_bind, undArr_toJax] at h
      exact ⟨iv, lv, rfl, rfl, (Option.some.inj h).symm⟩

theorem undArr_jaxArr (a : Arr) : undArr (TensorVal.jaxArr a) = a := rfl

theorem preprocess_all_jax (batch out : Batch)
    (h : _preprocess_batch batch = some out) :
    ∀ p ∈ out, ∃ a, p.2 = TensorVal.jaxArr a := by
  obtain ⟨iv, lv, hiv, hlv, hout⟩ := preprocess_out_spec batch out h
  subst hout
  have hbase : ∀ p ∈ batch.map (fun kv => (kv.1, toJaxValue kv.2)),
      ∃ a, p.2 = TensorVal.jaxArr a := by
    intro p hp
    rcases List.mem_map.mp hp with ⟨q, hq, hpq⟩
    subst hpq
    exact ⟨undArr q.2, toJaxValue_eq q.2⟩
  exact dictSet_forall_values (fun v => ∃ a, v = TensorVal.jaxArr a) _ _ _
    (dictSet_forall_values (fun v => ∃ a, v = TensorVal.jaxArr a) _ _ _
      (dictSet_forall_values (fun v => ∃ a, v = TensorVal.jaxArr a) _ _ _
        hbase ⟨_, rfl⟩) ⟨_, rfl⟩) ⟨_, rfl⟩

/-- C6: `_preprocess_batch` returns a mapping in which every value is a JAX
array, `input_ids` and `labels` are the int32 casts of the originals, and a
`position_ids` entry holds `shape[0]`-many copies of the row
`[0, 1, ..., shape[1] - 1]`, the shape being that of `input_ids`.  (The
caller's mapping is untouched: the embedding is functional and the code
builds a fresh dict by comprehension before mutating it.) -/
theorem c6_preprocess_normalization (batch out : Batch)
    (h : _preprocess_batch batch = some out) :
    (∀ p ∈ out, ∃ a, p.2 = TensorVal.jaxArr a) ∧
    (∃ iv, dictGet "input_ids" batch = some iv ∧
      dictGet "input_ids" out = some (TensorVal.jaxArr (astypeInt32 (undArr iv)))) ∧
    (∃ lv, dictGet "labels" batch = some lv ∧
      dictGet "labels" out = some (TensorVal.jaxArr (astypeInt32 (undArr lv)))) ∧
    (∃ iv, dictGet "input_ids" batch = some iv ∧
      dictGet "position_ids" out = some (TensorVal.jaxArr
        ⟨List.replicate (arrRows (undArr iv))
          ((List.range (arrCols (undArr iv))).map Int.ofNat), Dtype.int32⟩)) := by
  refine ⟨preprocess_all_jax batch out h, ?_, ?_, ?_⟩ <;>
    obtain ⟨iv, lv, hiv, hlv, hout⟩ := preprocess_out_spec batch out h <;>
    subst hout
  · refine ⟨iv, hiv, ?_⟩
    rw [dictSet_get_ne _ _ _ _ (by decide), dictSet_get_ne _ _ _ _ (by decide),
      dictSet_get_self]
  · refine ⟨lv, hlv, ?_⟩
    rw [dictSet_get_ne _ _ _ _ (by decide), dictSet_get_self]
  · refine ⟨iv, hiv, ?_⟩
    rw [dictSet_get_self]
    simp only [positionIds, arrRows_astype, arrCols_astype]

/-- C6 witness: a concrete two-token batch of PyTorch int64 tensors. -/
theorem c6_preprocess_normalization_witness :
    _preprocess_batch rawBatchExample = some preppedBatchExample ∧
    ((∀ p ∈ preppedBatchExample, ∃ a, p.2 = TensorVal.jaxArr a) ∧
      (∃ iv, dictGet "input_ids" rawBatchExample = some iv ∧
        dictGet "input_ids" preppedBatchExample =
          some (TensorVal.jaxArr (astypeInt32 (undArr iv)))) ∧
      (∃ lv, dictGet "labels" rawBatchExample = some lv ∧
        dictGet "labels" preppedBatchExample =
          some (TensorVal.jaxArr (astypeInt32 (undArr lv)))) ∧
      (∃ iv, dictGet "input_ids" rawBatchExample = some iv ∧
        dictGet "position_ids" preppedBatchExample = some (TensorVal.jaxArr
          ⟨List.replicate (arrRows (undArr iv))
            ((List.range (arrCols (undArr iv))).map Int.ofNat), Dtype.int32⟩))) :=
  ⟨by decide, c6_preprocess_normalization rawBatchExample preppedBatchExample (by decide)⟩

/-- C7: on a batch already in canonical form (all values JAX arrays,
`input_ids` and `labels` int32 with in-range entries, `position_ids`
present), `_preprocess_batch` is idempotent: a second application returns
the first application's output unchanged. -/
theorem c7_preprocess_idempotent (b out : Batch)
    (hjax : ∀ p ∈ b, ∃ a, p.2 = TensorVal.jaxArr a)
    (hids : ∃ a, dictGet "input_ids" b = some (TensorVal.jaxArr a) ∧
      arrInt32Canonical a)
    (hlbs : ∃ a, dictGet "labels" b = some (TensorVal.jaxArr a) ∧
      arrInt32Canonical a)
    (hpos : (dictGet "position_ids" b).isSome = true)
    (h1 : _preprocess_batch b = some out) :
    _preprocess_batch out = some out := by
  obtain ⟨iv, lv, hiv, hlv, hout⟩ := preprocess_out_spec b out h1
  have hjax_out : ∀ p ∈ out, ∃ a, p.2 = TensorVal.jaxArr a :=
    preprocess_all_jax b out h1
  have hgi : dictGet "input_ids" out =
      some (TensorVal.jaxArr (astypeInt32 (undArr iv))) := by
    rw [hout, dictSet_get_ne _ _ _ _ (by decide), dictSet_get_ne _ _ _ _ (by decide),
      dictSet_get_self]
  have hgl : dictGet "labels" out =
      some (TensorVal.jaxArr (astypeInt32 (undArr lv))) := by
    rw [hout, dictSet_get_ne _ _ _ _ (by decide), dictSet_get_self]
  have hgp : dictGet "position_ids" out = some (TensorVal.jaxArr (positionIds
      (arrRows (astypeInt32 (undArr iv))) (arrCols (astypeInt32 (undArr iv))))) := by
    rw [hout, dictSet_get_self]
  have u_inp : ∀ p ∈ out, p.1 = "input_ids" →
      p.2 = TensorVal.jaxArr (astypeInt32 (undArr iv)) := by
    rw [hout]
    exact dictSet_preserve_uniform _ _ _ _ _ (by decide)
      (dictSet_preserve_uniform _ _ _ _ _ (by decide) (dictSet_uniform _ _ _))
  have u_lab : ∀ p ∈ out, p.1 = "labels" →
      p.2 = TensorVal.jaxArr (astypeInt32 (undArr lv)) := by
    rw [hout]
    exact dictSet_preserve_uniform _ _ _ _ _ (by decide) (dictSet_uniform _ _ _)
  have u_pos : ∀ p ∈ out, p.1 = "position_ids" →
      p.2 = TensorVal.jaxArr (positionIds
        (arrRows (astypeInt32 (undArr iv))) (arrCols (astypeInt32 (undArr iv)))) := by
    rw [hout]
    exact dictSet_uniform _ _ _
  simp only [_preprocess_batch]
  rw [map_toJax_eq_self out hjax_out, hgi, hgl]
  simp only [Option.some_bind, undArr_jaxArr]
  simp only [astypeInt32_idem]
  rw [dictSet_eq_self out "input_ids" _ hgi u_inp,
    dictSet_eq_self out "labels" _ hgl u_lab,
    dictSet_eq_self out "position_ids" _ hgp u_pos]

/-- C7 witness: a concrete canonical batch, a fixed point of the
preprocessor. -/
theorem c7_preprocess_idempotent_witness :
    (∀ p ∈ canonicalBatchExample, ∃ a, p.2 = TensorVal.jaxArr a) ∧
    (∃ a, dictGet "input_ids" canonicalBatchExample =
      some (TensorVal.jaxArr a) ∧ arrInt32Canonical a) ∧
    (∃ a, dictGet "labels" canonicalBatchExample =
      some (TensorVal.jaxArr a) ∧ arrInt32Canonical a) ∧
    (dictGet "position_ids" canonicalBatchExample).isSome = true ∧
    _preprocess_batch canonicalBatchExample = some canonicalBatchExample ∧
    _preprocess_batch canonicalBatchExample = some canonicalBatchExample := by
  have hjax : ∀ p ∈ canonicalBatchExample, ∃ a, p.2 = TensorVal.jaxArr a := by
    intro p hp
    rcases List.mem_cons.mp hp with rfl | hp
    · exact ⟨_, rfl⟩
    rcases List.mem_cons.mp hp with rfl | hp
    · exact ⟨_, rfl⟩
    rcases List.mem_cons.mp hp with rfl | hp
    · exact ⟨_, rfl⟩
    cases hp
  refine ⟨hjax, ⟨⟨[[1, 2]], Dtype.int32⟩, by decide⟩,
    ⟨⟨[[3, 4]], Dtype.int32⟩, by decide⟩, by decide, by decide, ?_⟩
  exact c7_preprocess_idempotent canonicalBatchExample canonicalBatchExample hjax
    ⟨⟨[[1, 2]], Dtype.int32⟩, by decide⟩ ⟨⟨[[3, 4]], Dtype.int32⟩, by decide⟩
    (by decide) (by decide)
